import Mathlib

/-!
Verification development for the Goodreads "Best Books Ever" Airflow DAG
(src/dags/app.py).

The Python source is shallowly embedded as executable Lean definitions:

* `to_int` / `to_float` model `_to_int` / `_to_float` (regex-based numeric
  extraction).  Python regex search over `[\d,]+` resp. `\d+(?:\.\d+)?` is
  modelled character-by-character on `List Char`; Python `float` values of
  decimal literals are modelled as exact rationals (the only comparisons made
  are against decimal literals, where both agree).  `_to_int` can raise
  `ValueError` (when the matched token is made of commas only), so `to_int`
  returns `Except Unit (Option Nat)` with `Except.error ()` marking the raise.
* `parse_mini` models the mini-rating handling of `_parse_row`
  (avg_rating = first float token, num_ratings = max over all `[\d,]+`
  tokens, `ValueError` when some token strips to the empty string).
* `crawlGo` / `crawlRun` model the scraping loop of `fetch_goodreads_books`:
  the HTTP source is abstracted as `pages : Nat → Fetch`, giving for each page
  number either a non-200 response (`Fetch.fail`) or the list of records
  produced by `_parse_row` on the page's table rows (`Fetch.ok rows`).
  The loop is written with explicit fuel (`maxPages + 1` suffices, proved
  below); the result records the collected books, the `seen` title set and a
  trace of the visited pages (with the number of new rows kept per page).
* `fetch_goodreads_books` adds the mock fallback, the pandas
  `drop_duplicates(subset=["title"])` pass (`dedupByTitle`, keep-first) and
  the `head(num_books)` clipping.
* `create_table_task` / `insert_goodreads_into_postgres` / `run_pipeline`
  model the storage side: the store is `Option (List Book)` (`none` = table
  absent), `create_table_task` runs `DROP TABLE IF EXISTS` followed by
  `CREATE TABLE IF NOT EXISTS`, and the insert task appends rows (raising
  when handed no data, as the Python code does).
-/

/-- One record extracted by `_parse_row`: the six fields pushed to Postgres.
Numeric fields are optional, mirroring the defensive extraction. -/
structure Book where
  title : Option String
  author : Option String
  avg_rating : Option ℚ
  num_ratings : Option Nat
  score : Option Nat
  people_voted : Option Nat
deriving DecidableEq, Repr

/-- Characters matched by the Python regex `[\d,]+`. -/
def numChar (c : Char) : Bool := c.isDigit || c == ','

def digitVal (c : Char) : Nat := c.toNat - 48

/-- Value of a digit string, as computed by Python `int`. -/
def digitsToNat (l : List Char) : Nat := l.foldl (fun a c => a * 10 + digitVal c) 0

/-- Leftmost-longest match of `[\d,]+` in a character list
(`_num_re.search`). -/
def firstNumToken : List Char → Option (List Char)
  | [] => none
  | c :: cs => if numChar c then some (c :: cs.takeWhile numChar) else firstNumToken cs

def stripCommas (l : List Char) : List Char := l.filter (fun c => !(c == ','))

/-- `_to_int`: extract the first `[\d,]+` match, strip commas, convert with
`int`.  `Except.error ()` models the `ValueError` raised by `int("")` when the
match consists of commas only. -/
def to_int (s : Option String) : Except Unit (Option Nat) :=
  match s with
  | none => Except.ok none
  | some s =>
    if s = "" then Except.ok none
    else
      match firstNumToken s.data with
      | none => Except.ok none
      | some tok =>
        if stripCommas tok = [] then Except.error ()
        else Except.ok (some (digitsToNat (stripCommas tok)))

/-- Leftmost-longest match of `\d+(?:\.\d+)?` (`_float_re.search`):
maximal digit run, extended by a fractional part when a dot followed by a
digit comes right after it. -/
def firstFloatToken : List Char → Option (List Char)
  | [] => none
  | c :: cs =>
    if c.isDigit then
      some
        (match cs.dropWhile Char.isDigit with
          | '.' :: d :: ds =>
            if d.isDigit then
              c :: cs.takeWhile Char.isDigit ++ '.' :: d :: ds.takeWhile Char.isDigit
            else c :: cs.takeWhile Char.isDigit
          | _ => c :: cs.takeWhile Char.isDigit)
    else firstFloatToken cs

/-- Exact rational value of a matched float token (Python `float` of the same
literal, modelled exactly). -/
def floatVal (tok : List Char) : ℚ :=
  match tok.dropWhile Char.isDigit with
  | '.' :: fp => (digitsToNat (tok.takeWhile Char.isDigit) : ℚ) + (digitsToNat fp : ℚ) / (10 : ℚ) ^ fp.length
  | _ => (digitsToNat (tok.takeWhile Char.isDigit) : ℚ)

/-- `_to_float`: first `\d+(?:\.\d+)?` match converted with `float`. -/
def to_float (s : Option String) : Option ℚ :=
  match s with
  | none => none
  | some s =>
    if s = "" then none
    else (firstFloatToken s.data).map floatVal

/-- Accumulator pass splitting a character list into the maximal `[\d,]+`
runs, i.e. `_num_re.findall`. -/
def numTokensGo : List Char → List Char → List (List Char)
  | [], cur => if cur.isEmpty then [] else [cur.reverse]
  | c :: cs, cur =>
    if numChar c then numTokensGo cs (c :: cur)
    else if cur.isEmpty then numTokensGo cs [] else cur.reverse :: numTokensGo cs []

/-- `_num_re.findall`. -/
def numTokens (l : List Char) : List (List Char) := numTokensGo l []

def maxNat (l : List Nat) : Nat := l.foldl Nat.max 0

/-- Mini-rating handling of `_parse_row` (app.py lines 90-95): from the
minirating text compute `avg_rating` (first float match) and `num_ratings`
(`max` over the comma-stripped `int` of every `[\d,]+` token, `None` when the
list is empty).  `Except.error ()` models the `ValueError` raised inside the
list comprehension when some token strips to the empty string. -/
def parse_mini (mini_text : String) : Except Unit (Option ℚ × Option Nat) :=
  let avg := to_float (some mini_text)
  let toks := numTokens mini_text.data
  if toks.any (fun t => (stripCommas t).isEmpty) then Except.error ()
  else
    Except.ok (avg, if toks.isEmpty then none
      else some (maxNat (toks.map (fun t => digitsToNat (stripCommas t)))))

/-- Result of fetching one page: non-200 response, or the `_parse_row` output
for each `table.tableList tr` row of the page. -/
inductive Fetch where
  | fail : Fetch
  | ok : List Book → Fetch

/-- One loop iteration as it is observable from the logs: the page number and
either `none` (HTTP failure) or `some k` (`k` new rows kept on that page). -/
structure Visit where
  page : Nat
  found : Option Nat
deriving DecidableEq, Repr

structure CrawlResult where
  books : List Book
  seen : List String
  trace : List Visit
deriving DecidableEq, Repr

/-- The per-row keep decision of the scraping loop: `none` when the row is
skipped (`if not title or title in seen: continue`), `some t` when the row is
kept with title `t`. -/
def keepNew (seen : List String) (r : Book) : Option String :=
  match r.title with
  | none => none
  | some t => if t = "" ∨ t ∈ seen then none else some t

/-- Inner `for tr in soup.select(...)` loop: walk the rows, keep new titled
rows, count them, break out as soon as `num_books` is reached. -/
def processRows (numBooks : Nat) : List Book → List Book → List String → Nat → List Book × List String × Nat
  | [], books, seen, found => (books, seen, found)
  | r :: rs, books, seen, found =>
    match keepNew seen r with
    | none => processRows numBooks rs books seen found
    | some t =>
      if numBooks ≤ books.length + 1 then (books ++ [r], t :: seen, found + 1)
      else processRows numBooks rs (books ++ [r]) (t :: seen) (found + 1)

/-- The `while len(books) < num_books and page <= max_pages` loop of
`fetch_goodreads_books`, with explicit fuel.  `Fetch.fail` breaks (non-200
status); a page with zero new rows breaks when `1 < page`; otherwise the next
page is fetched. -/
def crawlGo (pages : Nat → Fetch) (numBooks maxPages : Nat) :
    Nat → Nat → List Book → List String → List Visit → CrawlResult
  | 0, _, books, seen, trace => ⟨books, seen, trace⟩
  | fuel + 1, page, books, seen, trace =>
    if books.length < numBooks ∧ page ≤ maxPages then
      match pages page with
      | Fetch.fail => ⟨books, seen, trace ++ [⟨page, none⟩]⟩
      | Fetch.ok rows =>
        let pr := processRows numBooks rows books seen 0
        if pr.2.2 = 0 ∧ 1 < page then ⟨pr.1, pr.2.1, trace ++ [⟨page, some pr.2.2⟩]⟩
        else crawlGo pages numBooks maxPages fuel (page + 1) pr.1 pr.2.1 (trace ++ [⟨page, some pr.2.2⟩])
    else ⟨books, seen, trace⟩

/-- The whole scraping loop: fuel `maxPages + 1` is sufficient (proved below:
the result is the same for any larger fuel). -/
def crawlRun (pages : Nat → Fetch) (numBooks maxPages : Nat) : CrawlResult :=
  crawlGo pages numBooks maxPages (maxPages + 1) 1 [] [] []

/-- First mock fallback record (app.py line 173). -/
def mockBookA : Book :=
  ⟨some "Mock Book A", some "Jane Example", some (4.25 : ℚ), some 120345, some 98000, some 45000⟩

/-- Second mock fallback record (app.py line 174). -/
def mockBookB : Book :=
  ⟨some "Mock Book B", some "John Example", some (4.10 : ℚ), some 80321, some 65000, some 30000⟩

def mockBooks : List Book := [mockBookA, mockBookB]

/-- pandas `drop_duplicates(subset=["title"])`: keep the first record bearing
each title value. -/
def dedupByTitle : List Book → List (Option String) → List Book
  | [], _ => []
  | b :: bs, seenT =>
    if b.title ∈ seenT then dedupByTitle bs seenT
    else b :: dedupByTitle bs (b.title :: seenT)

/-- The record list after the mock fallback (`books = [...][:num_books]` when
nothing was collected). -/
def postFallback (pages : Nat → Fetch) (numBooks maxPages : Nat) : List Book :=
  let collected := (crawlRun pages numBooks maxPages).books
  if collected = [] then mockBooks.take numBooks else collected

/-- Final record set pushed to XCom: fallback on empty, de-dup by title,
clip to `num_books` (`drop_duplicates(...).head(num_books)`). -/
def fetch_goodreads_books (pages : Nat → Fetch) (numBooks maxPages : Nat) : List Book :=
  (dedupByTitle (postFallback pages numBooks maxPages) []).take numBooks

/-- The rows a page would contribute: empty for a failed fetch. -/
def okRows (pages : Nat → Fetch) (p : Nat) : List Book :=
  match pages p with
  | Fetch.fail => []
  | Fetch.ok rows => rows

/-- The usable (non-empty) titles a fetched page carries. -/
def okTitles (pages : Nat → Fetch) (p : Nat) : List String :=
  ((okRows pages p).filterMap Book.title).filter (fun t => !(t == ""))

/-- The discovery stream of a crawl: all parsed rows of the visited pages, in
visit order. -/
def streamOf (pages : Nat → Fetch) (trace : List Visit) : List Book :=
  (trace.map (fun v => okRows pages v.page)).flatten

/-- The distinct non-empty titles discoverable across a set of visited
pages. -/
def discoverable (pages : Nat → Fetch) (trace : List Visit) : Finset String :=
  ((trace.map (fun v => okTitles pages v.page)).flatten).toFinset

/-- `DROP TABLE IF EXISTS goodreads_books` (first statement of
`create_goodreads_table`). -/
def drop_table_if_exists (_store : Option (List Book)) : Option (List Book) := none

/-- `CREATE TABLE IF NOT EXISTS goodreads_books (...)` (second statement). -/
def create_table_if_not_exists : Option (List Book) → Option (List Book)
  | none => some []
  | some rows => some rows

/-- The `create_goodreads_table` task: both statements, in order. -/
def create_table_task (store : Option (List Book)) : Option (List Book) :=
  create_table_if_not_exists (drop_table_if_exists store)

/-- `insert_goodreads_into_postgres`: raises on empty XCom data, otherwise
appends every record to the table inside one transaction. -/
def insert_goodreads_into_postgres (store : Option (List Book)) (book_data : List Book) :
    Except String (List Book) :=
  if book_data = [] then Except.error "No book data found"
  else
    match store with
    | none => Except.error "relation goodreads_books does not exist"
    | some rows => Except.ok (rows ++ book_data)

/-- One DAG run over the store, in task order
(`fetch_task >> create_table_task >> insert_task`). -/
def run_pipeline (store : Option (List Book)) (book_data : List Book) : Except String (List Book) :=
  insert_goodreads_into_postgres (create_table_task store) book_data

/-- A record's usable title (if any) is already in `seen`.  Rows satisfying
this contribute nothing new to the crawl. -/
def covered (seen : List String) (b : Book) : Prop :=
  ∀ t, b.title = some t → t ≠ "" → t ∈ seen

/-- `b` occurs in `l` and is the first element of `l` bearing its title. -/
def firstWith (l : List Book) (b : Book) : Prop :=
  ∃ l1 l2, l = l1 ++ b :: l2 ∧ ∀ x ∈ l1, x.title ≠ b.title

/-- Loop invariant of the scraping loop: the collected books carry exactly
the titles recorded in `seen` (in discovery order), `seen` has no duplicates
and no empty title. -/
def goodSt (books : List Book) (seen : List String) : Prop :=
  books.map Book.title = (seen.reverse).map some ∧ seen.Nodup ∧ "" ∉ seen

/-- Every row a visited page could contribute is covered by `seen`. -/
def visitCov (pages : Nat → Fetch) (seen : List String) (v : Visit) : Prop :=
  ∀ r ∈ okRows pages v.page, covered seen r

/-- Declarative reading of `_num_re.search`: `tok` is the leftmost-longest
substring of `s` made of characters of `[\d,]`. -/
def IsFirstNumMatch (s tok : List Char) : Prop :=
  ∃ l1 l2, s = l1 ++ tok ++ l2 ∧ tok ≠ [] ∧ (∀ c ∈ tok, numChar c = true) ∧
    (∀ c ∈ l1, numChar c = false) ∧ (∀ c cs, l2 = c :: cs → numChar c = false)

/-- A non-empty run of decimal digits. -/
def DigitRun (l : List Char) : Prop := l ≠ [] ∧ ∀ c ∈ l, c.isDigit = true

/-- Shape of a `\d+(?:\.\d+)?` match: digits, optionally followed by a dot
and more digits. -/
def FloatShape (tok : List Char) : Prop :=
  (tok ≠ [] ∧ ∀ c ∈ tok, c.isDigit = true) ∨
    ∃ ip fp, tok = ip ++ '.' :: fp ∧ DigitRun ip ∧ DigitRun fp

/-- Declarative reading of `_float_re.search`: `tok` is the leftmost, greedy
match of `\d+(?:\.\d+)?` in `s`. -/
def IsFirstFloatMatch (s tok : List Char) : Prop :=
  ∃ l1 l2, s = l1 ++ tok ++ l2 ∧ FloatShape tok ∧ (∀ c ∈ l1, c.isDigit = false) ∧
    (∀ c cs, l2 = c :: cs → c.isDigit = false) ∧
    ((∀ c ∈ tok, c.isDigit = true) → ∀ d ds, l2 = '.' :: d :: ds → d.isDigit = false)

/-- A row carrying only a title, as used in concrete test sources. -/
def plainBook (t : String) : Book := ⟨some t, none, none, none, none, none⟩

/-- A source on which every page parses to zero rows. -/
def emptySource : Nat → Fetch := fun _ => Fetch.ok []

/-- A source whose first page parses to zero rows while page 2 still carries
a record. -/
def lateSource : Nat → Fetch := fun p =>
  if p = 2 then Fetch.ok [plainBook "Only"] else Fetch.ok []

/-- A source with the same two records on every page. -/
def twoBookSource : Nat → Fetch := fun _ => Fetch.ok [plainBook "Alpha", plainBook "Beta"]

/-- A row of a previous pipeline run, sitting in the store. -/
def oldBook : Book := plainBook "Old Book"

/-- C5: the claim says a pipeline invocation never implicitly overwrites the
store (rows of a prior run survive, append semantics).  The code violates it:
`create_goodreads_table` runs `DROP TABLE IF EXISTS` on every DAG run — in
contradiction with the DAG's own header, which says the table is only created
if it does not exist.  Evaluating one run over a store holding a prior row:
the run succeeds, and the prior row is gone from the resulting table. -/
theorem pipeline_drops_prior_rows :
    run_pipeline (some [oldBook]) [mockBookA] = Except.ok [mockBookA] ∧
      oldBook ∉ [mockBookA] := by
  exact ⟨rfl, by decide⟩

/-- C6: the claim (and the spec) say `_to_int` / `_to_float` never raise, for
every input.  The code violates it: on `","` the regex `[\d,]+` matches the
bare comma, the comma is stripped, and `int("")` raises `ValueError`.  The
embedded `to_int` reports that raise as `Except.error ()`; the null cases
around it behave as claimed, and `_to_float` is safe on the same input. -/
theorem to_int_raises_on_separator_only :
    to_int (some ",") = Except.error () ∧ to_int none = Except.ok none ∧
      to_int (some "") = Except.ok none ∧ to_float (some ",") = none :=
  ⟨rfl, rfl, rfl, rfl⟩

/-- C7 (counterexample): the claimed contract — integer extraction returns the
separator-stripped first `[\d,]+` match or null, for every input string — fails
on `"a ,, b"`: the first match is `",,"`, stripping leaves the empty string,
and `int("")` raises `ValueError` instead of returning a value or null. -/
theorem to_int_error_on_comma_run : to_int (some "a ,, b") = Except.error () := rfl

/-- C8: the claim says `num_ratings` is the maximum over all integer tokens of
the minirating text (null when there is none) and `avg_rating` its first float
token, for every minirating string.  On well-formed text the code does exactly
that (first conjunct), but the claim fails as a universal statement: on a
minirating text whose `[\d,]+` token is a bare comma the list comprehension
evaluates `int("")` and raises `ValueError` (second conjunct), aborting the
scrape instead of producing null/max — against the spec's total-tolerance
contract for RecordParser. -/
theorem parse_mini_divergence :
    parse_mini "4.28 avg rating — 9,117,773 ratings" =
        Except.ok (some (4.28 : ℚ), some 9117773) ∧
      parse_mini "rated , times" = Except.error () := by
  constructor
  · have h : parse_mini "4.28 avg rating — 9,117,773 ratings" =
        Except.ok (some ((4 : ℚ) + 28 / 100), some 9117773) := rfl
    have hq : (4 : ℚ) + 28 / 100 = 4.28 := by norm_num
    rw [h, hq]
  · rfl

/-- C9 (counterexample): the claim says page 1 yielding zero new records also
ends the loop.  It does not: on a source whose page 1 parses to zero rows the
loop goes on to page 2 (and page 3), as the visit trace shows — the crawl
continues past the empty first page and still collects page 2's record. -/
theorem page_one_empty_not_terminal :
    (crawlRun lateSource 5 3).trace =
        [⟨1, some 0⟩, ⟨2, some 1⟩, ⟨3, some 0⟩] ∧
      (crawlRun lateSource 5 3).books = [plainBook "Only"] :=
  ⟨rfl, rfl⟩

/-- C4 (counterexample): the claim says the fallback substitution is
disable-able via an `enableFallbackOnEmpty` configuration, with the disabled
run raising `EmptyResultError`.  No such configuration exists in the code
(its only knobs are `num_books` and `max_pages`; the header says to *edit the
source* to remove the fallback): on a source yielding zero parsable rows on
every page, the run substitutes the mock records and the load succeeds —
no configuration of the embedded pipeline produces an empty-result failure. -/
theorem fallback_not_disableable :
    fetch_goodreads_books emptySource 5 3 = mockBooks ∧
      insert_goodreads_into_postgres (some [])
          (fetch_goodreads_books emptySource 5 3) = Except.ok mockBooks :=
  ⟨rfl, rfl⟩

theorem keepNew_none_iff (seen : List String) (r : Book) :
    keepNew seen r = none ↔ covered seen r := by
  unfold covered
  cases ht : r.title with
  | none => simp [keepNew, ht]
  | some t =>
    simp only [keepNew, ht]
    by_cases h1 : t = "" ∨ t ∈ seen
    · simp only [if_pos h1, true_iff]
      intro t' ht' hne
      cases ht'
      rcases h1 with h1 | h1
      · exact absurd h1 hne
      · exact h1
    · simp only [if_neg h1]
      push_neg at h1
      constructor
      · intro h; cases h
      · intro h; exact absurd (h t rfl h1.1) h1.2

theorem keepNew_some (seen : List String) (r : Book) (t : String)
    (h : keepNew seen r = some t) : r.title = some t ∧ t ≠ "" ∧ t ∉ seen := by
  cases ht : r.title with
  | none => simp [keepNew, ht] at h
  | some t' =>
    simp only [keepNew, ht] at h
    by_cases h1 : t' = "" ∨ t' ∈ seen
    · rw [if_pos h1] at h; cases h
    · rw [if_neg h1] at h
      push_neg at h1
      cases h
      exact ⟨rfl, h1.1, h1.2⟩

theorem covered_mono {seen seen' : List String} (hs : seen ⊆ seen') {b : Book}
    (h : covered seen b) : covered seen' b :=
  fun t ht hne => hs (h t ht hne)

theorem firstWith_append {l : List Book} {b : Book} (ext : List Book)
    (h : firstWith l b) : firstWith (l ++ ext) b := by
  obtain ⟨l1, l2, rfl, hfw⟩ := h
  exact ⟨l1, l2 ++ ext, by simp, hfw⟩

theorem processRows_seen_mono (n : Nat) : ∀ (rows books : List Book) (seen : List String) (found : Nat),
    seen ⊆ (processRows n rows books seen found).2.1 := by
  intro rows
  induction rows with
  | nil => intro b s f; simp [processRows]
  | cons r rs ih =>
    intro b s f
    rcases h : keepNew s r with _ | t
    · simpa only [processRows, h] using ih b s f
    · simp only [processRows, h]
      by_cases hl : n ≤ b.length + 1
      · simp only [if_pos hl]
        exact fun x hx => List.mem_cons_of_mem _ hx
      · simp only [if_neg hl]
        exact fun x hx => ih (b ++ [r]) (t :: s) (f + 1) (List.mem_cons_of_mem _ hx)

theorem processRows_len (n : Nat) : ∀ (rows books : List Book) (seen : List String) (found : Nat),
    books.length < n → (processRows n rows books seen found).1.length ≤ n := by
  intro rows
  induction rows with
  | nil => intro b s f hb; simpa [processRows] using Nat.le_of_lt hb
  | cons r rs ih =>
    intro b s f hb
    rcases h : keepNew s r with _ | t
    · simpa only [processRows, h] using ih b s f hb
    · simp only [processRows, h]
      by_cases hl : n ≤ b.length + 1
      · simp only [if_pos hl]
        simpa using Nat.le_antisymm hl hb |>.ge
      · simp only [if_neg hl]
        exact ih (b ++ [r]) (t :: s) (f + 1) (by simpa using Nat.lt_of_not_le hl)

theorem processRows_found_mono (n : Nat) : ∀ (rows books : List Book) (seen : List String) (found : Nat),
    found ≤ (processRows n rows books seen found).2.2 := by
  intro rows
  induction rows with
  | nil => intro b s f; simp [processRows]
  | cons r rs ih =>
    intro b s f
    rcases h : keepNew s r with _ | t
    · simpa only [processRows, h] using ih b s f
    · simp only [processRows, h]
      by_cases hl : n ≤ b.length + 1
      · simp only [if_pos hl]
        exact Nat.le_succ f
      · simp only [if_neg hl]
        exact Nat.le_of_succ_le (ih (b ++ [r]) (t :: s) (f + 1))

theorem processRows_found_eq (n : Nat) : ∀ (rows books : List Book) (seen : List String) (found : Nat),
    (processRows n rows books seen found).2.2 = found →
      (processRows n rows books seen found).1 = books ∧
        (processRows n rows books seen found).2.1 = seen := by
  intro rows
  induction rows with
  | nil => intro b s f _; simp [processRows]
  | cons r rs ih =>
    intro b s f hf
    rcases h : keepNew s r with _ | t
    · simp only [processRows, h] at hf ⊢
      exact ih b s f hf
    · exfalso
      simp only [processRows, h] at hf
      by_cases hl : n ≤ b.length + 1
      · rw [if_pos hl] at hf
        simp at hf
      · rw [if_neg hl] at hf
        have := processRows_found_mono n rs (b ++ [r]) (t :: s) (f + 1)
        omega

theorem processRows_good (n : Nat) : ∀ (rows books : List Book) (seen : List String) (found : Nat),
    goodSt books seen →
      goodSt (processRows n rows books seen found).1 (processRows n rows books seen found).2.1 := by
  intro rows
  induction rows with
  | nil => intro b s f hg; simpa [processRows] using hg
  | cons r rs ih =>
    intro b s f hg
    rcases h : keepNew s r with _ | t
    · simpa only [processRows, h] using ih b s f hg
    · obtain ⟨ht, hne, hns⟩ := keepNew_some s r t h
      obtain ⟨hI, hnd, hnb⟩ := hg
      have hg' : goodSt (b ++ [r]) (t :: s) := by
        refine ⟨?_, List.nodup_cons.mpr ⟨hns, hnd⟩, ?_⟩
        · simp only [List.map_append, List.map_cons, List.reverse_cons, List.map_append, hI, ht]
          simp
        · intro hmem
          rcases List.mem_cons.mp hmem with h1 | h1
          · exact hne h1.symm
          · exact hnb h1
      simp only [processRows, h]
      by_cases hl : n ≤ b.length + 1
      · simpa only [if_pos hl] using hg'
      · simpa only [if_neg hl] using ih (b ++ [r]) (t :: s) (f + 1) hg'

theorem processRows_covered (n : Nat) : ∀ (rows books : List Book) (seen : List String) (found : Nat),
    books.length < n → (processRows n rows books seen found).1.length < n →
      ∀ r ∈ rows, covered (processRows n rows books seen found).2.1 r := by
  intro rows
  induction rows with
  | nil => intro b s f _ _ r hr; cases hr
  | cons r rs ih =>
    intro b s f hb hres r' hr'
    rcases h : keepNew s r with _ | t
    · simp only [processRows, h] at hres ⊢
      rcases List.mem_cons.mp hr' with rfl | hmem
      · exact covered_mono (processRows_seen_mono n rs b s f)
          ((keepNew_none_iff s r').mp h)
      · exact ih b s f hb hres r' hmem
    · obtain ⟨ht, hne, hns⟩ := keepNew_some s r t h
      simp only [processRows, h] at hres ⊢
      by_cases hl : n ≤ b.length + 1
      · rw [if_pos hl] at hres
        simp at hres
        omega
      · rw [if_neg hl] at hres ⊢
        have hb' : (b ++ [r]).length < n := by simpa using Nat.lt_of_not_le hl
        rcases List.mem_cons.mp hr' with rfl | hmem
        · intro u hu hune
          rw [ht] at hu
          injection hu with hu
          subst hu
          exact processRows_seen_mono n rs _ _ (f + 1) (List.mem_cons_self t s)
        · exact ih (b ++ [r]) (t :: s) (f + 1) hb' hres r' hmem

theorem processRows_nofresh (n : Nat) : ∀ (rows books : List Book) (seen : List String) (found : Nat),
    (∀ r ∈ rows, ∀ t, r.title = some t → t = "") →
      processRows n rows books seen found = (books, seen, found) := by
  intro rows
  induction rows with
  | nil => intro b s f _; simp [processRows]
  | cons r rs ih =>
    intro b s f hall
    have h : keepNew s r = none :=
      (keepNew_none_iff s r).mpr
        (fun t ht hne => absurd (hall r (List.mem_cons_self r rs) t ht) hne)
    simp only [processRows, h]
    exact ih b s f (fun x hx => hall x (List.mem_cons_of_mem r hx))

theorem processRows_first (n : Nat) : ∀ (rows books : List Book) (seen : List String) (found : Nat)
    (done : List Book), books.length < n →
    (∀ x ∈ done, covered seen x) → (∀ b ∈ books, firstWith done b) →
      (∀ b ∈ (processRows n rows books seen found).1, firstWith (done ++ rows) b) ∧
        ((processRows n rows books seen found).1.length < n →
          ∀ x ∈ done ++ rows, covered (processRows n rows books seen found).2.1 x) := by
  intro rows
  induction rows with
  | nil =>
    intro b s f done _ hcov hfw
    simp only [processRows, List.append_nil]
    exact ⟨hfw, fun _ => hcov⟩
  | cons r rs ih =>
    intro b s f done hb hcov hfw
    have hrearr : done ++ r :: rs = (done ++ [r]) ++ rs := by simp
    rcases h : keepNew s r with _ | t
    · have hcovr : covered s r := (keepNew_none_iff s r).mp h
      have hcov' : ∀ x ∈ done ++ [r], covered s x := by
        intro x hx
        rcases List.mem_append.mp hx with h1 | h1
        · exact hcov x h1
        · rcases List.mem_singleton.mp h1 with rfl
          exact hcovr
      have hfw' : ∀ b' ∈ b, firstWith (done ++ [r]) b' :=
        fun b' hb' => firstWith_append [r] (hfw b' hb')
      simp only [processRows, h, hrearr]
      exact ih b s f (done ++ [r]) hb hcov' hfw'
    · obtain ⟨ht, hne, hns⟩ := keepNew_some s r t h
      have hfwr : firstWith (done ++ [r]) r := by
        refine ⟨done, [], by simp, ?_⟩
        intro x hx heq
        have := hcov x hx t (heq.trans ht) hne
        exact hns this
      simp only [processRows, h]
      by_cases hl : n ≤ b.length + 1
      · simp only [if_pos hl]
        constructor
        · intro b' hb'
          rcases List.mem_append.mp hb' with h1 | h1
          · exact firstWith_append _ (hfw b' h1)
          · rcases List.mem_singleton.mp h1 with rfl
            rw [hrearr]
            exact firstWith_append rs hfwr
        · intro hlen
          simp at hlen
          omega
      · simp only [if_neg hl]
        have hb' : (b ++ [r]).length < n := by simpa using Nat.lt_of_not_le hl
        have hcov' : ∀ x ∈ done ++ [r], covered (t :: s) x := by
          intro x hx
          rcases List.mem_append.mp hx with h1 | h1
          · exact covered_mono (List.subset_cons_self t s) (hcov x h1)
          · rcases List.mem_singleton.mp h1 with rfl
            intro u hu hune
            rw [ht] at hu
            injection hu with hu
            subst hu
            exact List.mem_cons_self t s
        have hfw' : ∀ b' ∈ b ++ [r], firstWith (done ++ [r]) b' := by
          intro b' hb'
          rcases List.mem_append.mp hb' with h1 | h1
          · exact firstWith_append [r] (hfw b' h1)
          · rcases List.mem_singleton.mp h1 with rfl
            exact hfwr
        rw [hrearr]
        exact ih (b ++ [r]) (t :: s) (f + 1) (done ++ [r]) hb' hcov' hfw'

theorem crawlGo_zero_eq (pages : Nat → Fetch) (nB mP page : Nat) (b : List Book)
    (s : List String) (t : List Visit) : crawlGo pages nB mP 0 page b s t = ⟨b, s, t⟩ := rfl

theorem crawlGo_succ_eq (pages : Nat → Fetch) (nB mP fuel page : Nat) (b : List Book)
    (s : List String) (t : List Visit) :
    crawlGo pages nB mP (fuel + 1) page b s t =
      if b.length < nB ∧ page ≤ mP then
        match pages page with
        | Fetch.fail => ⟨b, s, t ++ [⟨page, none⟩]⟩
        | Fetch.ok rows =>
          let pr := processRows nB rows b s 0
          if pr.2.2 = 0 ∧ 1 < page then ⟨pr.1, pr.2.1, t ++ [⟨page, some pr.2.2⟩]⟩
          else crawlGo pages nB mP fuel (page + 1) pr.1 pr.2.1 (t ++ [⟨page, some pr.2.2⟩])
      else ⟨b, s, t⟩ := rfl

theorem streamOf_append (pages : Nat → Fetch) (t1 t2 : List Visit) :
    streamOf pages (t1 ++ t2) = streamOf pages t1 ++ streamOf pages t2 := by
  simp [streamOf]

theorem streamOf_single (pages : Nat → Fetch) (v : Visit) :
    streamOf pages [v] = okRows pages v.page := by
  simp [streamOf]

theorem crawlGo_trace (pages : Nat → Fetch) (nB mP : Nat) :
    ∀ (fuel page : Nat) (b : List Book) (s : List String) (t : List Visit),
      ∃ ext, (crawlGo pages nB mP fuel page b s t).trace = t ++ ext ∧
        ext.length ≤ mP + 1 - page ∧ ∀ v ∈ ext, page ≤ v.page ∧ v.page ≤ mP := by
  intro fuel
  induction fuel with
  | zero =>
    intro page b s t
    exact ⟨[], by simp [crawlGo_zero_eq], Nat.zero_le _, by simp⟩
  | succ fuel ih =>
    intro page b s t
    rw [crawlGo_succ_eq]
    by_cases hc : b.length < nB ∧ page ≤ mP
    · rw [if_pos hc]
      cases hp : pages page with
      | fail =>
        refine ⟨[⟨page, none⟩], by simp, by simp only [List.length_singleton]; omega, ?_⟩
        intro v hv
        rcases List.mem_singleton.mp hv with rfl
        exact ⟨Nat.le_refl _, hc.2⟩
      | ok rows =>
        simp only
        by_cases hstop : (processRows nB rows b s 0).2.2 = 0 ∧ 1 < page
        · rw [if_pos hstop]
          refine ⟨[⟨page, some (processRows nB rows b s 0).2.2⟩], by simp,
            by simp only [List.length_singleton]; omega, ?_⟩
          intro v hv
          rcases List.mem_singleton.mp hv with rfl
          exact ⟨Nat.le_refl _, hc.2⟩
        · rw [if_neg hstop]
          obtain ⟨ext, he, hlen, hv⟩ :=
            ih (page + 1) (processRows nB rows b s 0).1 (processRows nB rows b s 0).2.1
              (t ++ [⟨page, some (processRows nB rows b s 0).2.2⟩])
          refine ⟨⟨page, some (processRows nB rows b s 0).2.2⟩ :: ext, ?_,
            by simp only [List.length_cons]; omega, ?_⟩
          · rw [he]; simp
          · intro v hv'
            rcases List.mem_cons.mp hv' with rfl | hmem
            · exact ⟨Nat.le_refl _, hc.2⟩
            · obtain ⟨h1, h2⟩ := hv v hmem
              exact ⟨Nat.le_of_succ_le h1, h2⟩
    · rw [if_neg hc]
      exact ⟨[], by simp, Nat.zero_le _, by simp⟩

theorem crawlGo_fuel (pages : Nat → Fetch) (nB mP : Nat) :
    ∀ (fuel page : Nat) (b : List Book) (s : List String) (t : List Visit),
      mP + 1 ≤ fuel + page →
      crawlGo pages nB mP (fuel + 1) page b s t = crawlGo pages nB mP fuel page b s t := by
  intro fuel
  induction fuel with
  | zero =>
    intro page b s t h
    have hc : ¬(b.length < nB ∧ page ≤ mP) := fun hc => by omega
    rw [crawlGo_succ_eq, if_neg hc, crawlGo_zero_eq]
  | succ fuel ih =>
    intro page b s t h
    conv_lhs => rw [crawlGo_succ_eq]
    conv_rhs => rw [crawlGo_succ_eq]
    by_cases hc : b.length < nB ∧ page ≤ mP
    · rw [if_pos hc, if_pos hc]
      cases hp : pages page with
      | fail => rfl
      | ok rows =>
        simp only
        by_cases hstop : (processRows nB rows b s 0).2.2 = 0 ∧ 1 < page
        · rw [if_pos hstop, if_pos hstop]
        · rw [if_neg hstop, if_neg hstop]
          exact ih (page + 1) _ _ _ (by omega)
    · rw [if_neg hc, if_neg hc]

theorem crawlRun_fuel (pages : Nat → Fetch) (nB mP : Nat) :
    ∀ fuel, mP + 1 ≤ fuel →
      crawlGo pages nB mP fuel 1 [] [] [] = crawlRun pages nB mP := by
  intro fuel
  induction fuel with
  | zero => intro h; omega
  | succ fuel ih =>
    intro h
    rcases Nat.lt_or_ge fuel (mP + 1) with hlt | hge
    · have : fuel = mP := by omega
      subst this
      rfl
    · rw [crawlGo_fuel pages nB mP fuel 1 [] [] [] (by omega)]
      exact ih hge

theorem okRows_fail {pages : Nat → Fetch} {p : Nat} (h : pages p = Fetch.fail) :
    okRows pages p = [] := by simp [okRows, h]

theorem okRows_ok {pages : Nat → Fetch} {p : Nat} {rows : List Book}
    (h : pages p = Fetch.ok rows) : okRows pages p = rows := by simp [okRows, h]

theorem visitCov_mono {pages : Nat → Fetch} {s s' : List String} (hs : s ⊆ s')
    {v : Visit} (h : visitCov pages s v) : visitCov pages s' v :=
  fun r hr => covered_mono hs (h r hr)

theorem crawlGo_collect (pages : Nat → Fetch) (nB mP : Nat) :
    ∀ (fuel page : Nat) (b : List Book) (s : List String) (t : List Visit),
      goodSt b s → b.length ≤ nB →
      (b.length < nB → ∀ v ∈ t, visitCov pages s v) →
      goodSt (crawlGo pages nB mP fuel page b s t).books
          (crawlGo pages nB mP fuel page b s t).seen ∧
        (crawlGo pages nB mP fuel page b s t).books.length ≤ nB ∧
        s ⊆ (crawlGo pages nB mP fuel page b s t).seen ∧
        ((crawlGo pages nB mP fuel page b s t).books.length < nB →
          ∀ v ∈ (crawlGo pages nB mP fuel page b s t).trace,
            visitCov pages (crawlGo pages nB mP fuel page b s t).seen v) := by
  intro fuel
  induction fuel with
  | zero =>
    intro page b s t hg hle ht
    rw [crawlGo_zero_eq]
    exact ⟨hg, hle, List.Subset.refl s, ht⟩
  | succ fuel ih =>
    intro page b s t hg hle ht
    rw [crawlGo_succ_eq]
    by_cases hc : b.length < nB ∧ page ≤ mP
    · rw [if_pos hc]
      cases hp : pages page with
      | fail =>
        refine ⟨hg, hle, List.Subset.refl s, ?_⟩
        intro hlen v hv
        rcases List.mem_append.mp hv with h1 | h1
        · exact ht hc.1 v h1
        · rcases List.mem_singleton.mp h1 with rfl
          intro r hr
          rw [okRows_fail hp] at hr
          exact absurd hr (List.not_mem_nil r)
      | ok rows =>
        simp only
        have hgood2 := processRows_good nB rows b s 0 hg
        have hlen2 := processRows_len nB rows b s 0 hc.1
        have hsub2 := processRows_seen_mono nB rows b s 0
        have hnewcov : (processRows nB rows b s 0).1.length < nB →
            visitCov pages (processRows nB rows b s 0).2.1 ⟨page, some (processRows nB rows b s 0).2.2⟩ := by
          intro hlen r hr
          rw [okRows_ok hp] at hr
          exact processRows_covered nB rows b s 0 hc.1 hlen r hr
        have htall : (processRows nB rows b s 0).1.length < nB →
            ∀ v ∈ t ++ [⟨page, some (processRows nB rows b s 0).2.2⟩],
              visitCov pages (processRows nB rows b s 0).2.1 v := by
          intro hlen v hv
          rcases List.mem_append.mp hv with h1 | h1
          · exact visitCov_mono hsub2 (ht hc.1 v h1)
          · rcases List.mem_singleton.mp h1 with rfl
            exact hnewcov hlen
        by_cases hstop : (processRows nB rows b s 0).2.2 = 0 ∧ 1 < page
        · rw [if_pos hstop]
          exact ⟨hgood2, hlen2, hsub2, htall⟩
        · rw [if_neg hstop]
          obtain ⟨hA, hB, hC, hD⟩ :=
            ih (page + 1) (processRows nB rows b s 0).1 (processRows nB rows b s 0).2.1
              (t ++ [⟨page, some (processRows nB rows b s 0).2.2⟩]) hgood2 hlen2 htall
          exact ⟨hA, hB, List.Subset.trans hsub2 hC, hD⟩
    · rw [if_neg hc]
      exact ⟨hg, hle, List.Subset.refl s, ht⟩

theorem crawlGo_first (pages : Nat → Fetch) (nB mP : Nat) :
    ∀ (fuel page : Nat) (b : List Book) (s : List String) (t : List Visit),
      (∀ x ∈ b, firstWith (streamOf pages t) x) →
      (b.length < nB → ∀ x ∈ streamOf pages t, covered s x) →
      ∀ x ∈ (crawlGo pages nB mP fuel page b s t).books,
        firstWith (streamOf pages (crawlGo pages nB mP fuel page b s t).trace) x := by
  intro fuel
  induction fuel with
  | zero =>
    intro page b s t hfw _
    rw [crawlGo_zero_eq]
    exact hfw
  | succ fuel ih =>
    intro page b s t hfw hcov
    rw [crawlGo_succ_eq]
    by_cases hc : b.length < nB ∧ page ≤ mP
    · rw [if_pos hc]
      cases hp : pages page with
      | fail =>
        intro x hx
        have : streamOf pages (t ++ [⟨page, none⟩]) = streamOf pages t := by
          rw [streamOf_append, streamOf_single]
          simp [okRows_fail hp]
        rw [this]
        exact hfw x hx
      | ok rows =>
        simp only
        have hst : streamOf pages (t ++ [⟨page, some (processRows nB rows b s 0).2.2⟩]) =
            streamOf pages t ++ rows := by
          rw [streamOf_append, streamOf_single]
          simp [okRows_ok hp]
        obtain ⟨h1, h2⟩ :=
          processRows_first nB rows b s 0 (streamOf pages t) hc.1 (hcov hc.1) hfw
        by_cases hstop : (processRows nB rows b s 0).2.2 = 0 ∧ 1 < page
        · rw [if_pos hstop]
          intro x hx
          rw [hst]
          exact h1 x hx
        · rw [if_neg hstop]
          refine ih (page + 1) (processRows nB rows b s 0).1 (processRows nB rows b s 0).2.1
            (t ++ [⟨page, some (processRows nB rows b s 0).2.2⟩]) ?_ ?_
          · intro x hx
            rw [hst]
            exact h1 x hx
          · intro hlen x hx
            rw [hst] at hx
            exact h2 hlen x hx
    · rw [if_neg hc]
      exact hfw

theorem crawlGo_nofresh (pages : Nat → Fetch) (nB mP : Nat)
    (hall : ∀ p rows, pages p = Fetch.ok rows → ∀ r ∈ rows, ∀ u, r.title = some u → u = "") :
    ∀ (fuel page : Nat) (b : List Book) (s : List String) (t : List Visit),
      (crawlGo pages nB mP fuel page b s t).books = b ∧
        (crawlGo pages nB mP fuel page b s t).seen = s := by
  intro fuel
  induction fuel with
  | zero =>
    intro page b s t
    rw [crawlGo_zero_eq]
    exact ⟨rfl, rfl⟩
  | succ fuel ih =>
    intro page b s t
    rw [crawlGo_succ_eq]
    by_cases hc : b.length < nB ∧ page ≤ mP
    · rw [if_pos hc]
      cases hp : pages page with
      | fail => exact ⟨rfl, rfl⟩
      | ok rows =>
        simp only
        have hpr : processRows nB rows b s 0 = (b, s, 0) :=
          processRows_nofresh nB rows b s 0 (hall page rows hp)
        rw [hpr]
        by_cases hpage : 1 < page
        · rw [if_pos ⟨rfl, hpage⟩]
          exact ⟨rfl, rfl⟩
        · rw [if_neg (fun hx => hpage hx.2)]
          exact ih (page + 1) b s (t ++ [⟨page, some 0⟩])
    · rw [if_neg hc]
      exact ⟨rfl, rfl⟩

theorem concat_cases {α : Type} : ∀ (l : List α) (x : α) (l1 : List α) (v : α) (l2 : List α),
    l ++ [x] = l1 ++ v :: l2 → l2 = [] ∨ v ∈ l := by
  intro l
  induction l with
  | nil =>
    intro x l1 v l2 h
    cases l1 with
    | nil =>
      simp only [List.nil_append] at h
      injection h with h1 h2
      exact Or.inl h2.symm
    | cons a l1' =>
      simp only [List.nil_append, List.cons_append] at h
      injection h with h1 h2
      exact absurd h2.symm (by simp)
  | cons a l ih =>
    intro x l1 v l2 h
    cases l1 with
    | nil =>
      simp only [List.cons_append, List.nil_append] at h
      injection h with h1 h2
      refine Or.inr ?_
      rw [← h1]
      exact List.mem_cons_self a l
    | cons c l1' =>
      simp only [List.cons_append] at h
      injection h with h1 h2
      rcases ih x l1' v l2 h2 with h3 | h3
      · exact Or.inl h3
      · exact Or.inr (List.mem_cons_of_mem a h3)

theorem crawlGo_stop (pages : Nat → Fetch) (nB mP : Nat) :
    ∀ (fuel page : Nat) (b : List Book) (s : List String) (t : List Visit),
      (∀ v ∈ t, ¬(v.found = some 0 ∧ 1 < v.page)) →
      ∀ (l1 : List Visit) (v : Visit) (l2 : List Visit),
        (crawlGo pages nB mP fuel page b s t).trace = l1 ++ v :: l2 →
        v.found = some 0 → 1 < v.page → l2 = [] := by
  intro fuel
  induction fuel with
  | zero =>
    intro page b s t hpre l1 v l2 h hf hp1
    rw [crawlGo_zero_eq] at h
    dsimp only at h
    have hv : v ∈ t := by
      rw [h]
      exact List.mem_append_right l1 (List.mem_cons_self v l2)
    exact absurd ⟨hf, hp1⟩ (hpre v hv)
  | succ fuel ih =>
    intro page b s t hpre l1 v l2 h hf hp1
    rw [crawlGo_succ_eq] at h
    by_cases hc : b.length < nB ∧ page ≤ mP
    · rw [if_pos hc] at h
      cases hp : pages page with
      | fail =>
        rw [hp] at h
        simp only at h
        rcases concat_cases t ⟨page, none⟩ l1 v l2 h with h2 | h2
        · exact h2
        · exact absurd ⟨hf, hp1⟩ (hpre v h2)
      | ok rows =>
        rw [hp] at h
        simp only at h
        by_cases hstop : (processRows nB rows b s 0).2.2 = 0 ∧ 1 < page
        · rw [if_pos hstop] at h
          simp only at h
          rcases concat_cases t ⟨page, some (processRows nB rows b s 0).2.2⟩ l1 v l2 h with h2 | h2
          · exact h2
          · exact absurd ⟨hf, hp1⟩ (hpre v h2)
        · rw [if_neg hstop] at h
          refine ih (page + 1) (processRows nB rows b s 0).1 (processRows nB rows b s 0).2.1
            (t ++ [⟨page, some (processRows nB rows b s 0).2.2⟩]) ?_ l1 v l2 h hf hp1
          intro w hw
          rcases List.mem_append.mp hw with h1 | h1
          · exact hpre w h1
          · rcases List.mem_singleton.mp h1 with rfl
            intro hcontra
            have : (processRows nB rows b s 0).2.2 = 0 := by
              have := hcontra.1
              injection this
            exact hstop ⟨this, hcontra.2⟩
    · rw [if_neg hc] at h
      dsimp only at h
      have hv : v ∈ t := by
        rw [h]
        exact List.mem_append_right l1 (List.mem_cons_self v l2)
      exact absurd ⟨hf, hp1⟩ (hpre v hv)

theorem dedupByTitle_subset : ∀ (l : List Book) (seenT : List (Option String)) (b : Book),
    b ∈ dedupByTitle l seenT → b ∈ l := by
  intro l
  induction l with
  | nil => intro seenT b h; cases h
  | cons a l ih =>
    intro seenT b h
    by_cases ht : a.title ∈ seenT
    · rw [dedupByTitle, if_pos ht] at h
      exact List.mem_cons_of_mem a (ih seenT b h)
    · rw [dedupByTitle, if_neg ht] at h
      rcases List.mem_cons.mp h with rfl | hmem
      · exact List.mem_cons_self _ _
      · exact List.mem_cons_of_mem a (ih (a.title :: seenT) b hmem)

theorem dedupByTitle_not_seen : ∀ (l : List Book) (seenT : List (Option String)) (b : Book),
    b ∈ dedupByTitle l seenT → b.title ∉ seenT := by
  intro l
  induction l with
  | nil => intro seenT b h; cases h
  | cons a l ih =>
    intro seenT b h
    by_cases ht : a.title ∈ seenT
    · rw [dedupByTitle, if_pos ht] at h
      exact ih seenT b h
    · rw [dedupByTitle, if_neg ht] at h
      rcases List.mem_cons.mp h with rfl | hmem
      · exact ht
      · intro hmem'
        exact ih (a.title :: seenT) b hmem (List.mem_cons_of_mem _ hmem')

theorem dedupByTitle_nodup : ∀ (l : List Book) (seenT : List (Option String)),
    ((dedupByTitle l seenT).map Book.title).Nodup := by
  intro l
  induction l with
  | nil => intro seenT; simp [dedupByTitle]
  | cons a l ih =>
    intro seenT
    by_cases ht : a.title ∈ seenT
    · rw [dedupByTitle, if_pos ht]
      exact ih seenT
    · rw [dedupByTitle, if_neg ht]
      rw [List.map_cons, List.nodup_cons]
      refine ⟨?_, ih (a.title :: seenT)⟩
      intro hmem
      obtain ⟨x, hx, hxt⟩ := List.mem_map.mp hmem
      exact dedupByTitle_not_seen l (a.title :: seenT) x hx (hxt ▸ List.mem_cons_self _ _)

theorem dedupByTitle_first : ∀ (l : List Book) (seenT : List (Option String)) (b : Book),
    b ∈ dedupByTitle l seenT → ∃ l1 l2, l = l1 ++ b :: l2 ∧ ∀ x ∈ l1, x.title ≠ b.title := by
  intro l
  induction l with
  | nil => intro seenT b h; cases h
  | cons a l ih =>
    intro seenT b h
    by_cases ht : a.title ∈ seenT
    · rw [dedupByTitle, if_pos ht] at h
      have hb := dedupByTitle_not_seen l seenT b h
      obtain ⟨l1, l2, rfl, hfw⟩ := ih seenT b h
      refine ⟨a :: l1, l2, rfl, ?_⟩
      intro x hx
      rcases List.mem_cons.mp hx with rfl | hmem
      · intro he
        exact hb (he ▸ ht)
      · exact hfw x hmem
    · rw [dedupByTitle, if_neg ht] at h
      rcases List.mem_cons.mp h with rfl | hmem
      · exact ⟨[], l, rfl, by simp⟩
      · have hb := dedupByTitle_not_seen l (a.title :: seenT) b hmem
        obtain ⟨l1, l2, rfl, hfw⟩ := ih (a.title :: seenT) b hmem
        refine ⟨a :: l1, l2, rfl, ?_⟩
        intro x hx
        rcases List.mem_cons.mp hx with rfl | hmem'
        · intro he
          exact hb (he ▸ List.mem_cons_self _ _)
        · exact hfw x hmem'

theorem dedupByTitle_eq_self : ∀ (l : List Book) (seenT : List (Option String)),
    (l.map Book.title).Nodup → (∀ b ∈ l, b.title ∉ seenT) → dedupByTitle l seenT = l := by
  intro l
  induction l with
  | nil => intro seenT _ _; rfl
  | cons a l ih =>
    intro seenT hnd hns
    rw [List.map_cons, List.nodup_cons] at hnd
    rw [dedupByTitle, if_neg (hns a (List.mem_cons_self a l))]
    congr 1
    refine ih (a.title :: seenT) hnd.2 ?_
    intro b hb
    intro hmem
    rcases List.mem_cons.mp hmem with he | hmem'
    · exact hnd.1 (he ▸ List.mem_map_of_mem Book.title hb)
    · exact hns b (List.mem_cons_of_mem a hb) hmem'

theorem goodSt_len {b : List Book} {s : List String} (hg : goodSt b s) :
    b.length = s.length := by
  have := congrArg List.length hg.1
  simpa using this

theorem goodSt_titles_nodup {b : List Book} {s : List String} (hg : goodSt b s) :
    (b.map Book.title).Nodup := by
  rw [hg.1]
  exact ((List.nodup_reverse.mpr hg.2.1).map (Option.some_injective String))

theorem goodSt_title_nonempty {b : List Book} {s : List String} (hg : goodSt b s) :
    ∀ x ∈ b, ∃ u, x.title = some u ∧ u ≠ "" := by
  intro x hx
  have hmem : x.title ∈ b.map Book.title := List.mem_map_of_mem Book.title hx
  rw [hg.1] at hmem
  obtain ⟨u, hu, he⟩ := List.mem_map.mp hmem
  refine ⟨u, he.symm, ?_⟩
  intro hu0
  exact hg.2.2 (hu0 ▸ List.mem_reverse.mp hu)

theorem crawlRun_collect (pages : Nat → Fetch) (nB mP : Nat) :
    goodSt (crawlRun pages nB mP).books (crawlRun pages nB mP).seen ∧
      (crawlRun pages nB mP).books.length ≤ nB ∧
      ((crawlRun pages nB mP).books.length < nB →
        ∀ v ∈ (crawlRun pages nB mP).trace,
          visitCov pages (crawlRun pages nB mP).seen v) := by
  obtain ⟨hA, hB, _, hD⟩ :=
    crawlGo_collect pages nB mP (mP + 1) 1 [] [] [] (by simp [goodSt]) (Nat.zero_le nB)
      (by intro _ v hv; cases hv)
  exact ⟨hA, hB, hD⟩

theorem crawlRun_full (pages : Nat → Fetch) (nB mP : Nat)
    (h : nB ≤ (discoverable pages (crawlRun pages nB mP).trace).card) :
    (crawlRun pages nB mP).books.length = nB := by
  obtain ⟨hg, hle, hcov⟩ := crawlRun_collect pages nB mP
  by_contra hne
  have hlt : (crawlRun pages nB mP).books.length < nB := Nat.lt_of_le_of_ne hle hne
  have hsub : ∀ u ∈ discoverable pages (crawlRun pages nB mP).trace,
      u ∈ (crawlRun pages nB mP).seen := by
    intro u hu
    rw [discoverable, List.mem_toFinset, List.mem_flatten] at hu
    obtain ⟨lt, hlt', hu'⟩ := hu
    obtain ⟨v, hv, rfl⟩ := List.mem_map.mp hlt'
    rw [okTitles, List.mem_filter] at hu'
    obtain ⟨hu1, hu2⟩ := hu'
    obtain ⟨r, hr, hrt⟩ := List.mem_filterMap.mp hu1
    refine hcov hlt v hv r hr u hrt ?_
    intro h0
    subst h0
    simp at hu2
  have hcard : (discoverable pages (crawlRun pages nB mP).trace).card ≤
      (crawlRun pages nB mP).seen.length := by
    calc (discoverable pages (crawlRun pages nB mP).trace).card
        ≤ (crawlRun pages nB mP).seen.toFinset.card :=
          Finset.card_le_card (fun u hu => List.mem_toFinset.mpr (hsub u hu))
      _ ≤ (crawlRun pages nB mP).seen.length := List.toFinset_card_le _
  have hlen := goodSt_len hg
  omega

theorem crawlRun_first (pages : Nat → Fetch) (nB mP : Nat) :
    ∀ x ∈ (crawlRun pages nB mP).books,
      firstWith (streamOf pages (crawlRun pages nB mP).trace) x := by
  refine crawlGo_first pages nB mP (mP + 1) 1 [] [] [] ?_ ?_
  · intro x hx; cases hx
  · intro _ x hx
    simp [streamOf] at hx

theorem fetch_books_of_empty (pages : Nat → Fetch) (nB mP : Nat)
    (h2 : (crawlRun pages nB mP).books = []) :
    fetch_goodreads_books pages nB mP = mockBooks.take nB := by
  have hnd : ((mockBooks.take nB).map Book.title).Nodup := by
    have hm : (mockBooks.map Book.title).Nodup := by decide
    exact hm.sublist ((List.take_sublist nB mockBooks).map Book.title)
  have hded : dedupByTitle (mockBooks.take nB) [] = mockBooks.take nB :=
    dedupByTitle_eq_self _ _ hnd (by simp)
  unfold fetch_goodreads_books postFallback
  rw [if_pos h2, hded, List.take_take, Nat.min_self]

/-- C1: the final record set handed to the loader has length at most
`num_books`; and it has length exactly `num_books` whenever at least
`num_books` distinct non-empty titles are discoverable across the pages
fetched within `max_pages` (the visit trace of the run). -/
theorem crawl_target_clipping (pages : Nat → Fetch) (nB mP : Nat) (h : 0 < nB) :
    (fetch_goodreads_books pages nB mP).length ≤ nB ∧
      (nB ≤ (discoverable pages (crawlRun pages nB mP).trace).card →
        (fetch_goodreads_books pages nB mP).length = nB) := by
  constructor
  · exact List.length_take_le nB _
  · intro hd
    have hfull := crawlRun_full pages nB mP hd
    have hg := (crawlRun_collect pages nB mP).1
    have hne : (crawlRun pages nB mP).books ≠ [] := by
      intro h0
      rw [h0] at hfull
      simp at hfull
      omega
    unfold fetch_goodreads_books postFallback
    rw [if_neg hne,
      dedupByTitle_eq_self _ _ (goodSt_titles_nodup hg) (by intro x hx; simp),
      List.length_take, hfull, Nat.min_self]

theorem crawl_target_clipping_check :
    0 < 2 ∧ ((fetch_goodreads_books twoBookSource 2 3).length ≤ 2 ∧
      (2 ≤ (discoverable twoBookSource (crawlRun twoBookSource 2 3).trace).card →
        (fetch_goodreads_books twoBookSource 2 3).length = 2)) :=
  ⟨by decide, crawl_target_clipping twoBookSource 2 3 (by decide)⟩

/-- C2: for every configuration with `max_pages > 0` the crawl loop reaches a
terminal state in at most `max_pages` iterations (the visit trace has at most
`max_pages` entries, and the result is the same for any fuel beyond
`max_pages + 1`, i.e. extra iterations change nothing), and it never fetches a
page whose number exceeds `max_pages`. -/
theorem crawl_monotonic_termination (pages : Nat → Fetch) (nB mP : Nat) (h : 0 < mP) :
    (crawlRun pages nB mP).trace.length ≤ mP ∧
      (∀ v ∈ (crawlRun pages nB mP).trace, 1 ≤ v.page ∧ v.page ≤ mP) ∧
      ∀ fuel, mP + 1 ≤ fuel →
        crawlGo pages nB mP fuel 1 [] [] [] = crawlRun pages nB mP := by
  obtain ⟨ext, he, hlen, hv⟩ := crawlGo_trace pages nB mP (mP + 1) 1 [] [] []
  rw [List.nil_append] at he
  refine ⟨?_, ?_, crawlRun_fuel pages nB mP⟩
  · rw [crawlRun, he]
    omega
  · intro v hv'
    rw [crawlRun, he] at hv'
    exact hv v hv'

theorem crawl_monotonic_termination_check :
    0 < 2 ∧ ((crawlRun twoBookSource 5 2).trace.length ≤ 2 ∧
      (∀ v ∈ (crawlRun twoBookSource 5 2).trace, 1 ≤ v.page ∧ v.page ≤ 2) ∧
      ∀ fuel, 2 + 1 ≤ fuel →
        crawlGo twoBookSource 5 2 fuel 1 [] [] [] = crawlRun twoBookSource 5 2) :=
  ⟨by decide, crawl_monotonic_termination twoBookSource 5 2 (by decide)⟩

/-- C3: every record of the final set has a non-null, non-empty title; the
titles of the final set are pairwise distinct; each retained record is the
first record bearing its title in the deduplicated input (and, when the crawl
actually collected something, the first in the full discovery stream of the
visited pages). -/
theorem crawl_dedup_invariants (pages : Nat → Fetch) (nB mP : Nat) (h : 0 < nB) :
    (∀ x ∈ fetch_goodreads_books pages nB mP, ∃ u, x.title = some u ∧ u ≠ "") ∧
      ((fetch_goodreads_books pages nB mP).map Book.title).Nodup ∧
      (∀ x ∈ fetch_goodreads_books pages nB mP,
        firstWith (postFallback pages nB mP) x) ∧
      ((crawlRun pages nB mP).books ≠ [] →
        ∀ x ∈ fetch_goodreads_books pages nB mP,
          firstWith (streamOf pages (crawlRun pages nB mP).trace) x) := by
  have hmem : ∀ x ∈ fetch_goodreads_books pages nB mP,
      x ∈ dedupByTitle (postFallback pages nB mP) [] := by
    intro x hx
    exact List.take_subset nB _ hx
  have hmem2 : ∀ x ∈ fetch_goodreads_books pages nB mP, x ∈ postFallback pages nB mP := by
    intro x hx
    exact dedupByTitle_subset _ [] x (hmem x hx)
  refine ⟨?_, ?_, ?_, ?_⟩
  · intro x hx
    have hx2 := hmem2 x hx
    unfold postFallback at hx2
    by_cases hcol : (crawlRun pages nB mP).books = []
    · rw [if_pos hcol] at hx2
      have hx3 : x ∈ mockBooks := List.take_subset nB mockBooks hx2
      rcases List.mem_cons.mp hx3 with rfl | hx4
      · exact ⟨"Mock Book A", rfl, by decide⟩
      · rcases List.mem_singleton.mp hx4 with rfl
        exact ⟨"Mock Book B", rfl, by decide⟩
    · rw [if_neg hcol] at hx2
      exact goodSt_title_nonempty (crawlRun_collect pages nB mP).1 x hx2
  · have hnd := dedupByTitle_nodup (postFallback pages nB mP) []
    unfold fetch_goodreads_books
    rw [List.map_take]
    exact hnd.sublist (List.take_sublist nB _)
  · intro x hx
    obtain ⟨l1, l2, he, hfw⟩ := dedupByTitle_first _ [] x (hmem x hx)
    exact ⟨l1, l2, he, hfw⟩
  · intro hne x hx
    have hx2 := hmem2 x hx
    unfold postFallback at hx2
    rw [if_neg hne] at hx2
    exact crawlRun_first pages nB mP x hx2

theorem crawl_dedup_invariants_check :
    0 < 2 ∧ ((∀ x ∈ fetch_goodreads_books twoBookSource 2 3, ∃ u, x.title = some u ∧ u ≠ "") ∧
      ((fetch_goodreads_books twoBookSource 2 3).map Book.title).Nodup ∧
      (∀ x ∈ fetch_goodreads_books twoBookSource 2 3,
        firstWith (postFallback twoBookSource 2 3) x) ∧
      ((crawlRun twoBookSource 2 3).books ≠ [] →
        ∀ x ∈ fetch_goodreads_books twoBookSource 2 3,
          firstWith (streamOf twoBookSource (crawlRun twoBookSource 2 3).trace) x)) :=
  ⟨by decide, crawl_dedup_invariants twoBookSource 2 3 (by decide)⟩

/-- C4 (amended): when every fetched page yields zero parsable rows (no row
carries a usable title), the pipeline always substitutes the non-empty mock
record set — flagged only by a warning log — and the run succeeds.  There is
no `enableFallbackOnEmpty` configuration and no `EmptyResultError`: the
substitution cannot be disabled without editing the source. -/
theorem fallback_always_substituted (pages : Nat → Fetch) (nB mP : Nat) (h1 : 0 < nB)
    (h2 : ∀ p rows, pages p = Fetch.ok rows → ∀ r ∈ rows, ∀ u, r.title = some u → u = "") :
    fetch_goodreads_books pages nB mP = mockBooks.take nB ∧
      fetch_goodreads_books pages nB mP ≠ [] := by
  have hcol : (crawlRun pages nB mP).books = [] :=
    (crawlGo_nofresh pages nB mP h2 (mP + 1) 1 [] [] []).1
  have hfe := fetch_books_of_empty pages nB mP hcol
  refine ⟨hfe, ?_⟩
  rw [hfe]
  obtain ⟨m, rfl⟩ : ∃ m, nB = m + 1 := ⟨nB - 1, by omega⟩
  simp [mockBooks]

theorem fallback_always_substituted_check :
    0 < 3 ∧
      (∀ p rows, emptySource p = Fetch.ok rows → ∀ r ∈ rows, ∀ u, r.title = some u → u = "") ∧
      (fetch_goodreads_books emptySource 3 2 = mockBooks.take 3 ∧
        fetch_goodreads_books emptySource 3 2 ≠ []) :=
  by
  have hsrc : ∀ p rows, emptySource p = Fetch.ok rows →
      ∀ r ∈ rows, ∀ u, r.title = some u → u = "" := by
    intro p rows hp r hr u ht
    injection hp with hp
    subst hp
    cases hr
  exact ⟨by decide, hsrc, fallback_always_substituted emptySource 3 2 (by decide) hsrc⟩

/-- C9 (amended): a page visited with `page > 1` that contributes zero new
records is terminal — nothing is fetched after it.  Page 1 yielding zero new
records is *not* terminal and does not end the loop: the crawl proceeds to
page 2 (the visit trace continues with a page-2 entry). -/
theorem empty_page_stop_rule (pages : Nat → Fetch) (nB mP : Nat) (h1 : 0 < nB)
    (h2 : 2 ≤ mP) :
    (∀ (l1 : List Visit) (v : Visit) (l2 : List Visit),
        (crawlRun pages nB mP).trace = l1 ++ v :: l2 →
        v.found = some 0 → 1 < v.page → l2 = []) ∧
      (∀ rows, pages 1 = Fetch.ok rows → (processRows nB rows [] [] 0).2.2 = 0 →
        ∃ w rest, (crawlRun pages nB mP).trace = ⟨1, some 0⟩ :: w :: rest ∧
          w.page = 2) := by
  constructor
  · exact crawlGo_stop pages nB mP (mP + 1) 1 [] [] [] (by intro v hv; cases hv)
  · intro rows hp hf0
    obtain ⟨m, rfl⟩ : ∃ m, mP = m + 2 := ⟨mP - 2, by omega⟩
    obtain ⟨hb0, hs0⟩ := processRows_found_eq nB rows [] [] 0 hf0
    rw [crawlRun, crawlGo_succ_eq, if_pos ⟨by simpa using h1, by omega⟩, hp]
    simp only
    rw [hf0, hb0, hs0, if_neg (by omega : ¬((0 : Nat) = 0 ∧ 1 < 1)), List.nil_append]
    rw [crawlGo_succ_eq, if_pos ⟨by simpa using h1, by omega⟩]
    cases hp2 : pages 2 with
    | fail => exact ⟨⟨2, none⟩, [], rfl, rfl⟩
    | ok rows2 =>
      simp only
      by_cases hstop : (processRows nB rows2 [] [] 0).2.2 = 0 ∧ 1 < 2
      · rw [if_pos hstop]
        exact ⟨⟨2, some (processRows nB rows2 [] [] 0).2.2⟩, [], rfl, rfl⟩
      · rw [if_neg hstop]
        obtain ⟨ext, he, _, _⟩ :=
          crawlGo_trace pages nB (m + 2) (m + 1) 3 (processRows nB rows2 [] [] 0).1
            (processRows nB rows2 [] [] 0).2.1
            ([⟨1, some 0⟩] ++ [⟨2, some (processRows nB rows2 [] [] 0).2.2⟩])
        refine ⟨⟨2, some (processRows nB rows2 [] [] 0).2.2⟩, ext, ?_, rfl⟩
        rw [he]
        simp

theorem empty_page_stop_rule_check :
    0 < 5 ∧ 2 ≤ 3 ∧
      ((∀ (l1 : List Visit) (v : Visit) (l2 : List Visit),
          (crawlRun lateSource 5 3).trace = l1 ++ v :: l2 →
          v.found = some 0 → 1 < v.page → l2 = []) ∧
        (∀ rows, lateSource 1 = Fetch.ok rows → (processRows 5 rows [] [] 0).2.2 = 0 →
          ∃ w rest, (crawlRun lateSource 5 3).trace = ⟨1, some 0⟩ :: w :: rest ∧
            w.page = 2)) :=
  ⟨by decide, by decide, empty_page_stop_rule lateSource 5 3 (by decide) (by decide)⟩

/-- C10: whenever the crawl collects zero records, the returned record set is
exactly the two fixed mock records truncated to `num_books`, so the fallback
output has length `min 2 num_books` no matter how large `num_books` is. -/
theorem fallback_shape (pages : Nat → Fetch) (nB mP : Nat) (h1 : 0 < nB)
    (h2 : (crawlRun pages nB mP).books = []) :
    fetch_goodreads_books pages nB mP = mockBooks.take nB ∧
      (fetch_goodreads_books pages nB mP).length = min 2 nB := by
  have hfe := fetch_books_of_empty pages nB mP h2
  refine ⟨hfe, ?_⟩
  rw [hfe, List.length_take]
  show min nB 2 = min 2 nB
  exact Nat.min_comm nB 2

theorem fallback_shape_check :
    0 < 4 ∧ (crawlRun emptySource 4 2).books = [] ∧
      (fetch_goodreads_books emptySource 4 2 = mockBooks.take 4 ∧
        (fetch_goodreads_books emptySource 4 2).length = min 2 4) :=
  ⟨by decide, rfl, fallback_shape emptySource 4 2 (by decide) rfl⟩

theorem span_unique (p : Char → Bool) : ∀ (tk rest : List Char),
    (∀ c ∈ tk, p c = true) → (∀ c cs, rest = c :: cs → p c = false) →
    (tk ++ rest).takeWhile p = tk ∧ (tk ++ rest).dropWhile p = rest := by
  intro tk
  induction tk with
  | nil =>
    intro rest _ hrest
    cases rest with
    | nil => simp
    | cons c cs =>
      have hc := hrest c cs rfl
      simp [List.takeWhile_cons, List.dropWhile_cons, hc]
  | cons a tk ih =>
    intro rest hall hrest
    have ha : p a = true := hall a (List.mem_cons_self a tk)
    obtain ⟨h1, h2⟩ := ih rest (fun c hc => hall c (List.mem_cons_of_mem a hc)) hrest
    simp [List.takeWhile_cons, List.dropWhile_cons, ha, h1, h2]

theorem firstNumToken_of_match : ∀ (l1 tok l2 : List Char), tok ≠ [] →
    (∀ c ∈ tok, numChar c = true) → (∀ c ∈ l1, numChar c = false) →
    (∀ c cs, l2 = c :: cs → numChar c = false) →
    firstNumToken (l1 ++ tok ++ l2) = some tok := by
  intro l1
  induction l1 with
  | nil =>
    intro tok l2 hne hall _ hl2
    cases tok with
    | nil => exact absurd rfl hne
    | cons c cs =>
      have hc : numChar c = true := hall c (List.mem_cons_self c cs)
      simp only [List.nil_append, List.cons_append, firstNumToken, List.append_eq]
      rw [if_pos hc,
        (span_unique numChar cs l2 (fun x hx => hall x (List.mem_cons_of_mem c hx)) hl2).1]
  | cons a l1' ih =>
    intro tok l2 hne hall hpre hl2
    have ha : numChar a = false := hpre a (List.mem_cons_self a l1')
    simp only [List.cons_append, firstNumToken]
    rw [if_neg (by simp [ha])]
    exact ih tok l2 hne hall (fun c hc => hpre c (List.mem_cons_of_mem a hc)) hl2

theorem firstNumToken_none : ∀ l : List Char, (∀ c ∈ l, numChar c = false) →
    firstNumToken l = none := by
  intro l
  induction l with
  | nil => intro _; rfl
  | cons a l ih =>
    intro hall
    have ha : numChar a = false := hall a (List.mem_cons_self a l)
    rw [firstNumToken, if_neg (by simp [ha])]
    exact ih (fun c hc => hall c (List.mem_cons_of_mem a hc))

theorem firstFloatToken_none : ∀ l : List Char, (∀ c ∈ l, c.isDigit = false) →
    firstFloatToken l = none := by
  intro l
  induction l with
  | nil => intro _; rfl
  | cons a l ih =>
    intro hall
    have ha : a.isDigit = false := hall a (List.mem_cons_self a l)
    rw [firstFloatToken, if_neg (by simp [ha])]
    exact ih (fun c hc => hall c (List.mem_cons_of_mem a hc))

theorem firstFloatToken_of_match : ∀ (l1 tok l2 : List Char), FloatShape tok →
    (∀ c ∈ l1, c.isDigit = false) →
    (∀ c cs, l2 = c :: cs → c.isDigit = false) →
    ((∀ c ∈ tok, c.isDigit = true) → ∀ d ds, l2 = '.' :: d :: ds → d.isDigit = false) →
    firstFloatToken (l1 ++ tok ++ l2) = some tok := by
  intro l1
  induction l1 with
  | cons a l1' ih =>
    intro tok l2 hshape hpre hl2 hdot
    have ha : a.isDigit = false := hpre a (List.mem_cons_self a l1')
    simp only [List.cons_append, firstFloatToken]
    rw [if_neg (by simp [ha])]
    exact ih tok l2 hshape (fun c hc => hpre c (List.mem_cons_of_mem a hc)) hl2 hdot
  | nil =>
    intro tok l2 hshape _ hl2 hdot
    rcases hshape with ⟨hne, hall⟩ | ⟨ip, fp, rfl, hip, hfp⟩
    · cases tok with
      | nil => exact absurd rfl hne
      | cons c cs =>
        have hc : c.isDigit = true := hall c (List.mem_cons_self c cs)
        have hspan := span_unique Char.isDigit cs l2
          (fun x hx => hall x (List.mem_cons_of_mem c hx)) hl2
        simp only [List.nil_append, List.cons_append, firstFloatToken, List.append_eq]
        rw [if_pos hc, hspan.1, hspan.2]
        split
        · rename_i d ds
          have hd : d.isDigit = false := hdot hall d ds rfl
          rw [if_neg (by simp [hd])]
        · rfl
    · obtain ⟨hipne, hipd⟩ := hip
      obtain ⟨hfpne, hfpd⟩ := hfp
      cases ip with
      | nil => exact absurd rfl hipne
      | cons c ip' =>
        have hc : c.isDigit = true := hipd c (List.mem_cons_self c ip')
        cases fp with
        | nil => exact absurd rfl hfpne
        | cons d0 fp' =>
          have hd0 : d0.isDigit = true := hfpd d0 (List.mem_cons_self d0 fp')
          have hspan1 := span_unique Char.isDigit ip' ('.' :: d0 :: (fp' ++ l2))
            (fun x hx => hipd x (List.mem_cons_of_mem c hx))
            (by intro x xs hx; injection hx with h1 h2; rw [← h1]; decide)
          have hspan2 := span_unique Char.isDigit fp' l2
            (fun x hx => hfpd x (List.mem_cons_of_mem d0 hx)) hl2
          simp only [List.nil_append, List.cons_append, List.append_assoc, firstFloatToken,
            List.append_eq]
          rw [if_pos hc, hspan1.2]
          split
          · rename_i d ds heq
            have hde : d0 = d ∧ fp' ++ l2 = ds := by
              injection heq with h1 h2
              injection h2 with h2a h2b
              exact ⟨h2a, h2b⟩
            obtain ⟨rfl, rfl⟩ := hde
            rw [if_pos hd0, hspan1.1, hspan2.1]
          · rename_i hno
            exact absurd rfl (hno d0 (fp' ++ l2))

/-- C7 (amended): integer extraction returns the separator-stripped value of
the leftmost-longest `[\d,]+` match *provided the match still contains a digit
after stripping* (a commas-only match raises instead, see the counterexample);
float extraction returns the value of the leftmost greedy `\d+(?:\.\d+)?`
match; both return null on null/empty input or when the input has no matching
character; and the spec's three concrete examples hold. -/
theorem extraction_first_match_semantics :
    (to_int none = Except.ok none ∧ to_float none = none ∧
      to_int (some "") = Except.ok none ∧ to_float (some "") = none) ∧
    (∀ s : String, (∀ c ∈ s.data, numChar c = false) →
      to_int (some s) = Except.ok none) ∧
    (∀ s : String, (∀ c ∈ s.data, c.isDigit = false) → to_float (some s) = none) ∧
    (∀ (s : String) (tok : List Char), IsFirstNumMatch s.data tok →
      stripCommas tok ≠ [] →
      to_int (some s) = Except.ok (some (digitsToNat (stripCommas tok)))) ∧
    (∀ (s : String) (tok : List Char), IsFirstFloatMatch s.data tok →
      to_float (some s) = some (floatVal tok)) ∧
    (to_float (some "4.28 avg rating — 9,117,773 ratings") = some (4.28 : ℚ) ∧
      to_int (some "30,210 people voted") = Except.ok (some 30210) ∧
      to_int none = Except.ok none) := by
  refine ⟨⟨rfl, rfl, rfl, rfl⟩, ?_, ?_, ?_, ?_, ?_⟩
  · intro s hs
    by_cases h0 : s = ""
    · subst h0; rfl
    · simp only [to_int]
      rw [if_neg h0, firstNumToken_none s.data hs]
  · intro s hs
    by_cases h0 : s = ""
    · subst h0; rfl
    · simp only [to_float]
      rw [if_neg h0, firstFloatToken_none s.data hs]
      rfl
  · intro s tok hm hstrip
    obtain ⟨l1, l2, hs, hne, hall, hpre, hl2⟩ := hm
    have h0 : ¬s = "" := by
      intro h
      subst h
      have h2 : l1 ++ tok ++ l2 = [] := hs.symm
      simp only [List.append_eq_nil] at h2
      exact hne h2.1.2
    simp only [to_int]
    rw [if_neg h0, hs, firstNumToken_of_match l1 tok l2 hne hall hpre hl2]
    simp only [if_neg hstrip]
  · intro s tok hm
    obtain ⟨l1, l2, hs, hshape, hpre, hl2, hdot⟩ := hm
    have hne : tok ≠ [] := by
      rcases hshape with ⟨h, _⟩ | ⟨ip, fp, rfl, _, _⟩
      · exact h
      · intro h
        simp only [List.append_eq_nil] at h
        exact absurd h.2 (by simp)
    have h0 : ¬s = "" := by
      intro h
      subst h
      have h2 : l1 ++ tok ++ l2 = [] := hs.symm
      simp only [List.append_eq_nil] at h2
      exact hne h2.1.2
    simp only [to_float]
    rw [if_neg h0, hs, firstFloatToken_of_match l1 tok l2 hshape hpre hl2 hdot]
    rfl
  · refine ⟨?_, rfl, rfl⟩
    have h : to_float (some "4.28 avg rating — 9,117,773 ratings") =
        some ((4 : ℚ) + 28 / 100) := rfl
    have hq : (4 : ℚ) + 28 / 100 = 4.28 := by norm_num
    rw [h, hq]

theorem extraction_first_match_semantics_check :
    IsFirstNumMatch "a12b".data ['1', '2'] ∧ stripCommas ['1', '2'] ≠ [] ∧
      to_int (some "a12b") = Except.ok (some 12) ∧
      IsFirstFloatMatch "x3.5y".data ['3', '.', '5'] ∧
      to_float (some "x3.5y") = some (3.5 : ℚ) := by
  have hnum : IsFirstNumMatch "a12b".data ['1', '2'] := by
    refine ⟨['a'], ['b'], by decide, by decide, by decide, by decide, ?_⟩
    intro c cs h
    injection h with h1 h2
    rw [← h1]
    decide
  have hfl : IsFirstFloatMatch "x3.5y".data ['3', '.', '5'] := by
    refine ⟨['x'], ['y'], by decide, ?_, by decide, ?_, ?_⟩
    · exact Or.inr ⟨['3'], ['5'], by decide, ⟨by decide, by decide⟩, ⟨by decide, by decide⟩⟩
    · intro c cs h
      injection h with h1 h2
      rw [← h1]
      decide
    · intro hall d ds h
      exact absurd (hall '.' (by decide)) (by decide)
  refine ⟨hnum, by decide, ?_, hfl, ?_⟩
  · exact extraction_first_match_semantics.2.2.2.1 "a12b" ['1', '2'] hnum (by decide)
  · have h := extraction_first_match_semantics.2.2.2.2.1 "x3.5y" ['3', '.', '5'] hfl
    have hv : floatVal ['3', '.', '5'] = (3 : ℚ) + 5 / 10 := rfl
    have hq : (3 : ℚ) + 5 / 10 = 3.5 := by norm_num
    rw [h, hv, hq]
